import Mathlib

/-!
Verification development for a two-stage climate-data pipeline:
`munge.py` (fixed-width parsing, CSV writing, Fahrenheit conversion) and
`analyze.py` (periodic averaging).

The Python source is shallowly embedded: Python `int` becomes `Int`
(or `Nat` for list indices), Python `float` becomes `ℚ`, fallible code
returns `Except PyErr`, file-system effects become an explicit log of
operations, and the mutable default argument of `_to_farenheit` becomes
explicit state passed in and returned.
-/

deriving instance DecidableEq for Except

attribute [local semireducible] Rat.add Rat.mul Rat.inv Rat.sub Rat.ofScientific

/-- Errors the Python code can raise, stripped of their message payloads. -/
inductive PyErr where
  | valueError : PyErr
  | indexError : PyErr
  | fileNotFound : PyErr
  | fileExists : PyErr
deriving DecidableEq, Repr

/-- File-system operations performed by `parse_fixed_width_data`, in order. -/
inductive FsOp where
  | openRead : String → FsOp
  | writeFile : String → List Char → FsOp
deriving DecidableEq, Repr

/-! ## Character-level helpers for CSV writing (write_csv)

`write_csv` writes `",".join(row) + "\n"` for each row.  We model the file
content as a `List Char` and provide a character-level splitter used to
state the round-trip property (the re-parse by splitting on a separator). -/

/-- Join pieces with a separator character (model of `sep.join`). -/
def joinCh (sep : Char) : List (List Char) → List Char
  | [] => []
  | [x] => x
  | x :: xs => x ++ sep :: joinCh sep xs

/-- Split a character list on a separator, Python `str.split(sep)` style:
`splitCh sep [] = [[]]`, mirroring `"".split(sep) == ['']`. -/
def splitCh (sep : Char) : List Char → List (List Char)
  | [] => [[]]
  | c :: cs =>
    if c = sep then [] :: splitCh sep cs
    else
      match splitCh sep cs with
      | [] => [[c]]
      | f :: r => (c :: f) :: r

/-- One serialized row: `",".join(row)` (munge.py line 52). -/
def rowLine (row : List String) : List Char :=
  joinCh ',' (row.map String.data)

/-- Whole file content written by `write_csv`: each row's line followed
by a newline, concatenated in table order. -/
def csvContent (data : List (List String)) : List Char :=
  (data.map (fun row => rowLine row ++ ['\n'])).flatten

/-- `write_csv` (munge.py lines 15-52): refuses to overwrite an existing
destination unless `overwrite`, otherwise produces the file content. -/
def write_csv (destExists : Bool) (data : List (List String)) (overwrite : Bool) :
    Except PyErr (List Char) :=
  if ¬ overwrite ∧ destExists then .error .fileExists
  else .ok (csvContent data)

/-- The lines of a written file: split the content on newlines; the content
ends with a final newline (or is empty), so the last split piece is the
empty leftover and is dropped. -/
def fileLinesOf (content : List Char) : List (List Char) :=
  (splitCh '\n' content).dropLast

/-! ## Periodic aggregator (analyze.py `_display_periodic_avg`)

Records are (year, anomaly) pairs, already extracted from the CSV rows by
the `Year` / `J-D` lookups; prints are modelled as an emitted list of
`(start, end, average)` windows.  `year_range` is a dict holding `start`
and `end` while a window is open and is cleared on emission: we model it
as an `Option (Int × Int)`. -/

/-- The start year the loop body uses: the open window's recorded start,
or (`if not year_range: year_range["start"] = this_year`) the current
record's year when no window is open. -/
def startOf : Option (Int × Int) → Int → Int
  | none, y => y
  | some w, _ => w.1

/-- One iteration of the `for row in reader` loop (analyze.py lines 38-54),
acting on (open-window state, running sum, emitted output). -/
def aggStep (period : Int)
    (st : (Option (Int × Int) × ℚ) × List (Int × Int × ℚ)) (r : Int × ℚ) :
    (Option (Int × Int) × ℚ) × List (Int × Int × ℚ) :=
  let y := r.1
  let start := startOf st.1.1 y
  let s := st.1.2 + r.2
  if y - start + 1 = period then
    ((none, 0), st.2 ++ [(start, y, s / (period : ℚ))])
  else
    ((some (start, y), s), st.2)

/-- `_display_periodic_avg` (analyze.py lines 14-62): fold the loop body
over the records, then (lines 56-60) emit the still-open partial window,
divided by its actual span, when `print_last` is set. -/
def _display_periodic_avg (rows : List (Int × ℚ)) (period : Int) (print_last : Bool) :
    List (Int × Int × ℚ) :=
  let fin := rows.foldl (aggStep period) ((none, 0), [])
  match fin.1.1, print_last with
  | some w, true => fin.2 ++ [(w.1, w.2, fin.1.2 / (((w.2 - w.1 + 1 : Int) : ℚ)))]
  | some _, false => fin.2
  | none, _ => fin.2

/-- Records with consecutive integer years starting at `y0` and the given
anomaly values, in order. -/
def recsFrom (y0 : Int) : List ℚ → List (Int × ℚ)
  | [] => []
  | v :: vs => (y0, v) :: recsFrom (y0 + 1) vs

/-! ## Fixed-width parser (munge.py `parse_fixed_width_data`)

The source file is modelled as the list of strings successive `readline`
calls return (each line keeps its trailing newline; reads past EOF give
`""`).  `re.split("[\s]+", line, maxsplit)` is modelled character by
character; Python's `maxsplit = 0` means "no limit", which we realize by
allowing as many splits as there are characters. -/

/-- The whitespace class matched by the regex `[\s]+` (ASCII part;
the data files are ASCII). -/
def pyIsSpace (c : Char) : Bool :=
  c = ' ' ∨ c = '\t' ∨ c = '\n' ∨ c = '\r' ∨ c = '\x0b' ∨ c = '\x0c'

/-- Split on runs of whitespace performing at most `k` splits; once the
budget is exhausted the remainder (whitespace included) is the last field. -/
def splitWsLimited : Nat → List Char → List (List Char)
  | 0, cs => [cs]
  | k + 1, cs =>
    let f := cs.takeWhile (fun c => ¬ pyIsSpace c)
    let rest := cs.dropWhile (fun c => ¬ pyIsSpace c)
    match rest with
    | [] => [f]
    | _ :: _ => f :: splitWsLimited k (rest.dropWhile (fun c => pyIsSpace c))

/-- `re.split("[\s]+", s, maxsplit=m)` with Python's convention that
`m = 0` imposes no limit (at most `s.length` splits can ever happen). -/
def reSplitWs (m : Nat) (s : String) : List String :=
  ((if m = 0 then splitWsLimited s.data.length s.data
    else splitWsLimited m s.data).map (fun l => String.mk l))

/-- `NO_RESTRICTION` (munge.py line 11). -/
def NO_RESTRICTION : Nat := 0

/-- `_is_postive_integer` (munge.py lines 54-56); in the `Int` embedding
the `type(x) == int` part always holds.  (Typo preserved from source.) -/
def _is_postive_integer (x : Int) : Bool :=
  x > 0

/-- The `col_len` validation condition (munge.py lines 117-119):
`col_len is not None and not _is_postive_integer(col_len) and col_len != 0`. -/
def badColLen : Option Int → Bool
  | none => false
  | some c => (! _is_postive_integer c) && (c != 0)

/-- The first skip condition of the parse loop (munge.py line 141):
`header and len(data_row) != len(header)` — note an empty header is falsy,
disabling the length check. -/
def hdrMismatch : Option (List String) → List String → Bool
  | none, _ => false
  | some h, dr => (! h.isEmpty) && (dr.length != h.length)

/-- The parse loop (munge.py lines 134-149) over the region's raw lines.
Each line is split (`maxsplit` capped), truncated by
`source_row[:min(len(source_row), maxsplit)]`, filtered against the
header, and the header is recorded on the first line only. -/
def parseLines (m : Nat) : Option (List String) → Bool → List String → List (List String)
  | _, _, [] => []
  | header, isFirst, line :: rest =>
    let sr := reSplitWs m line
    let dr := sr.take (min sr.length m)
    if hdrMismatch header dr then parseLines m header false rest
    else if header = some dr then parseLines m header false rest
    else dr :: parseLines m (if isFirst then some dr else header) false rest

/-- `parse_fixed_width_data` (munge.py lines 59-155).  `fileLines` and the
two existence flags stand for the file system; the returned `List FsOp`
is the ordered log of file-system operations actually performed. -/
def parse_fixed_width_data
    (fileLines : List String) (sourceExists : Bool) (destExists : Bool)
    (path : String) (start endLine : Int) (col_len : Option Int)
    (destination : String) (overwrite : Bool) :
    Except PyErr (Option (List (List String))) × List FsOp :=
  if ¬ _is_postive_integer start then (.error .valueError, [])
  else if ¬ _is_postive_integer endLine then (.error .valueError, [])
  else if start > endLine then (.error .valueError, [])
  else if badColLen col_len then (.error .valueError, [])
  else if ¬ sourceExists then (.error .fileNotFound, [])
  else
    let maxsplit : Nat := (match col_len with | some c => c | none => 0).toNat
    let region := (List.range (endLine - start + 1).toNat).map
      (fun i => fileLines.getD ((start - 1).toNat + i) "")
    let data := parseLines maxsplit none true region
    if destination = "" then (.ok (some data), [.openRead path])
    else if ¬ overwrite ∧ destExists then (.error .fileExists, [.openRead path])
    else (.ok none, [.openRead path, .writeFile destination (csvContent data)])

/-! ## Fahrenheit conversion (munge.py `_to_farenheit`)

Python floats become `ℚ`; `float(entry)` becomes `pyFloat`, and the
formatting `"%.1f" % val` becomes `formatOneDecimal` (rounding the
rational to one decimal; exact-tie behavior of binary doubles is below
this model's resolution and never arises in the inputs considered).

The `end=[None, None]` default is a module-level mutable list shared by
all calls using the default; it is modelled as explicit state
`(Option Nat × Option Nat)` passed in and returned (resolved in place by
lines 179-180). -/

/-- `TO_FARENHEIT_COEFFICIENT` (munge.py line 12). -/
def TO_FARENHEIT_COEFFICIENT : ℚ := 1.8

/-- Digit list to value. -/
def digitsVal (l : List Char) : Nat :=
  l.foldl (fun a c => a * 10 + (c.toNat - 48)) 0

/-- Model of Python `float(s)` on decimal literals: optional surrounding
whitespace, optional sign, digits with an optional fractional part
(at least one digit overall); anything else raises `ValueError`
(exponents / inf / nan do not occur in this data). -/
def pyFloat (s : String) : Option ℚ :=
  let cs := ((s.data.dropWhile pyIsSpace).reverse.dropWhile pyIsSpace).reverse
  let signAndBody : ℚ × List Char :=
    match cs with
    | '-' :: t => (-1, t)
    | '+' :: t => (1, t)
    | _ => (1, cs)
  let body := signAndBody.2
  let ip := body.takeWhile Char.isDigit
  let rest := body.dropWhile Char.isDigit
  match rest with
  | [] => if ip.isEmpty then none else some (signAndBody.1 * (digitsVal ip : ℚ))
  | '.' :: fp =>
    if fp.all Char.isDigit ∧ ¬ (ip.isEmpty ∧ fp.isEmpty) then
      some (signAndBody.1 * ((digitsVal ip : ℚ) + (digitsVal fp : ℚ) / (10 : ℚ) ^ fp.length))
    else none
  | _ => none

/-- Model of `"%.1f" % val` on the rational model of the double. -/
def formatOneDecimal (q : ℚ) : String :=
  let n : Int := round (q * 10)
  let m : Nat := n.natAbs
  (if n < 0 then "-" else "") ++ toString (m / 10) ++ "." ++ toString (m % 10)

/-- Cell lookup `data[i][j]` as an `Option`. -/
def cellGet (d : List (List String)) (i j : Nat) : Option String :=
  (d.get? i).bind (fun row => row.get? j)

/-- What one loop-body iteration turns a cell's text into, when it
succeeds: `float(entry)` then `"%.1f" % (val * 1.8)`. -/
def convCell (s : String) : Option String :=
  (pyFloat s).map (fun v => formatOneDecimal (v * TO_FARENHEIT_COEFFICIENT))

/-- The inner loop body (munge.py lines 184-188) at one index pair.
`if not entry.isnumeric: continue` references the method without calling
it — a bound method is always truthy, so the guard never skips and
`float(entry)` is reached for every visited cell. -/
def toFarStep (d : List (List String)) (ij : Nat × Nat) :
    Except PyErr (List (List String)) :=
  match d.get? ij.1 with
  | none => .error .indexError
  | some row =>
    match row.get? ij.2 with
    | none => .error .indexError
    | some entry =>
      match pyFloat entry with
      | none => .error .valueError
      | some v =>
        .ok (d.set ij.1 (row.set ij.2 (formatOneDecimal (v * TO_FARENHEIT_COEFFICIENT))))

/-- Run the loop body over the region's index pairs in order, stopping at
the first raised exception. -/
def runRegion : List (Nat × Nat) → List (List String) → Except PyErr (List (List String))
  | [], d => .ok d
  | ij :: rest, d =>
    match toFarStep d ij with
    | .error e => .error e
    | .ok d' => runRegion rest d'

/-- Index pairs visited by `for row_index in range(r0, rN): for col_index
in range(c0, cN)`, row-major. -/
def regionList (r0 rN c0 cN : Nat) : List (Nat × Nat) :=
  (List.range' r0 (rN - r0)).flatMap
    (fun i => (List.range' c0 (cN - c0)).map (fun j => (i, j)))

/-- `_to_farenheit` (munge.py lines 158-190).  `endSt` is the current
content of the shared default `end` list; the returned first component is
its content after the call (lines 179-180 assign into it).  Note the
faithful defects: `end[1]` defaults to `len(data[0][0])` — the length of
the first cell's *string* — and both loop bounds use `end[1]`. -/
def _to_farenheit (endSt : Option Nat × Option Nat) (data : List (List String))
    (start : Nat × Nat) :
    (Option Nat × Option Nat) × Except PyErr (List (List String)) :=
  if data.length = 0 ∨ (data.headD []).length = 0 then (endSt, .ok data)
  else
    let e0 : Nat := match endSt.1 with
      | some v => if v = 0 then data.length else v
      | none => data.length
    let e1 : Nat := match endSt.2 with
      | some v => if v = 0 then ((data.headD []).headD "").length else v
      | none => ((data.headD []).headD "").length
    ((some e0, some e1), runRegion (regionList start.1 e1 start.2 e1) data)

/-! ## Theorems -/

/-- C8: for the empty record sequence `_display_periodic_avg` completes as
a degenerate no-op emitting no windows; no division is performed, so no
division-by-zero can be raised. -/
theorem agg_empty_is_noop : ∀ (period : Int) (print_last : Bool),
    _display_periodic_avg [] period print_last = [] := by
  intro period pl
  cases pl <;> rfl

/-- C10: `_to_farenheit` is not deterministic in its explicit arguments:
a first call on `[["25","3"],["4","5"]]` resolves the shared default `end`
list to `[2, 2]`, and a later default-`end` call on `[["7","8"],["9","10"]]`
then converts a different region than the same call made on a fresh
default, producing a different table. -/
theorem to_farenheit_shared_default_state :
    (_to_farenheit ((_to_farenheit (none, none) [["25","3"],["4","5"]] (0, 0)).1)
        [["7","8"],["9","10"]] (0, 0)).2 ≠
      (_to_farenheit (none, none) [["7","8"],["9","10"]] (0, 0)).2 := by
  decide

/-- C2 (failing evaluation): with `col_len` omitted, `maxsplit` is `0` and
the truncation `source_row[:min(len(source_row), maxsplit)]` empties every
row: parsing the single line `"a b"` returns `[[]]`, not `[["a","b"]]`. -/
theorem parse_no_limit_drops_all_fields :
    parse_fixed_width_data ["a b"] true false "src" 1 1 none "" false =
      (.ok (some [[]]), [.openRead "src"]) := by
  decide

/-- C1 (counterexample): the cell `"ab"` in the conversion region is not
numeric, yet the pass raises `ValueError` on it instead of passing it
through unchanged — `entry.isnumeric` is a truthy method reference, so
`float(entry)` is attempted on every visited cell. -/
theorem to_farenheit_nonnumeric_raises :
    pyFloat "ab" = none ∧
    (_to_farenheit (none, none) [["ab","1"],["2","3"]] (0, 0)).2 =
      .error .valueError := by
  decide

/-- C3 (counterexample): on `[["12","3"],["4","5"]]` with default bounds
the pass converts the header row and header column too (the region starts
at row 0, column 0 and both bounds are `len(data[0][0]) = 2`): the header
cell `"12"` becomes `"21.6"` although the claim says cells outside the
region from row 1, column 1 are left unchanged. -/
theorem to_farenheit_default_converts_header :
    (_to_farenheit (none, none) [["12","3"],["4","5"]] (0, 0)).2 =
      .ok [["21.6","5.4"],["7.2","9.0"]] ∧ ("21.6" : String) ≠ "12" := by
  decide

/-- C7 (counterexample): for the table `[[]]` (one empty row — no field,
hence no field containing a comma) the written file is the single newline,
whose one line splits on commas to `[""]`, not back to `[]`: the
round-trip fails without a nonempty-row assumption. -/
theorem write_csv_roundtrip_fails_empty_row :
    write_csv false [[]] false = .ok ['\n'] ∧
    (fileLinesOf ['\n']).map (fun l => (splitCh ',' l).map String.mk) = [[""]] ∧
    ([[""]] : List (List String)) ≠ [[]] := by
  decide

/-- C9: when `start` or `end` is not positive, `start > end`, or `col_len`
is negative, `parse_fixed_width_data` raises `ValueError` with an empty
file-system log: the source is never opened and no destination is created
or modified.  (The "non-integer" cases are outside the `Int` embedding.) -/
theorem parse_invalid_args_fs_untouched
    (fileLines : List String) (sourceExists destExists : Bool)
    (path : String) (start endLine : Int) (col_len : Option Int)
    (destination : String) (overwrite : Bool)
    (h : start ≤ 0 ∨ endLine ≤ 0 ∨ start > endLine ∨ badColLen col_len = true) :
    parse_fixed_width_data fileLines sourceExists destExists path start endLine
      col_len destination overwrite = (.error .valueError, []) := by
  unfold parse_fixed_width_data
  split_ifs with h1 h2 h3 h4 <;>
    first
      | rfl
      | (exfalso
         simp only [_is_postive_integer, decide_eq_true_eq, not_lt, not_le] at h1 h2 h3 h4
         rcases h with h | h | h | h <;> simp_all <;> omega)

/-- Witness for `parse_invalid_args_fs_untouched` at `start = 0`. -/
theorem parse_invalid_args_fs_untouched_w :
    parse_fixed_width_data [] true false "p" 0 5 none "" false =
      (.error .valueError, []) :=
  parse_invalid_args_fs_untouched [] true false "p" 0 5 none "" false
    (Or.inl (by decide))

/-- `re.split` always yields at least one field (even on `""`). -/
theorem splitWsLimited_ne_nil (k : Nat) (cs : List Char) :
    splitWsLimited k cs ≠ [] := by
  cases k with
  | zero => simp [splitWsLimited]
  | succ k =>
    simp only [splitWsLimited]
    split <;> simp

/-- `reSplitWs` always yields at least one field. -/
theorem reSplitWs_ne_nil (m : Nat) (s : String) : reSplitWs m s ≠ [] := by
  unfold reSplitWs
  split <;> simp [splitWsLimited_ne_nil]

/-- With `maxsplit = 0`, the truncation slice empties every parsed row. -/
theorem parseLines_zero (header : Option (List String)) (isFirst : Bool)
    (lines : List String) : ∀ r ∈ parseLines 0 header isFirst lines, r = [] := by
  induction lines generalizing header isFirst with
  | nil => simp [parseLines]
  | cons line rest ih =>
    intro r hr
    simp only [parseLines, Nat.min_zero, List.take_zero] at hr
    split at hr
    · exact ih _ _ r hr
    · split at hr
      · exact ih _ _ r hr
      · rcases List.mem_cons.mp hr with h | h
        · exact h
        · exact ih _ _ r h

/-- Once a nonempty header is fixed, every further emitted row has the
header's field count. -/
theorem parseLines_steady (m : Nat) (h : List String) (hne : h ≠ [])
    (lines : List String) :
    ∀ r ∈ parseLines m (some h) false lines, r.length = h.length := by
  induction lines with
  | nil => simp [parseLines]
  | cons line rest ih =>
    intro r hr
    simp only [parseLines] at hr
    split at hr
    · exact ih r hr
    · split at hr
      · exact ih r hr
      · rcases List.mem_cons.mp hr with hh | hh
        · subst hh
          rename_i hmis _
          have hEmp : h.isEmpty = false := by
            cases h with
            | nil => exact absurd rfl hne
            | cons a t => rfl
          by_contra hlen
          exact hmis (by
            simp only [hdrMismatch, hEmp, Bool.not_false, Bool.true_and, bne_iff_ne, ne_eq]
            exact hlen)
        · exact ih r hh

/-- All rows returned by the parse loop (header included) have the same
field count. -/
theorem parseLines_uniform (m : Nat) (lines : List String) :
    ∀ r ∈ parseLines m none true lines, ∀ r' ∈ parseLines m none true lines,
      r.length = r'.length := by
  cases m with
  | zero =>
    intro r hr r' hr'
    rw [parseLines_zero none true lines r hr, parseLines_zero none true lines r' hr']
  | succ k =>
    cases lines with
    | nil => simp [parseLines]
    | cons line rest =>
      have hred : parseLines (k + 1) none true (line :: rest) =
          (reSplitWs (k + 1) line).take (min (reSplitWs (k + 1) line).length (k + 1)) ::
            parseLines (k + 1)
              (some ((reSplitWs (k + 1) line).take
                (min (reSplitWs (k + 1) line).length (k + 1)))) false rest := by
        simp [parseLines, hdrMismatch]
      set dr := (reSplitWs (k + 1) line).take (min (reSplitWs (k + 1) line).length (k + 1))
        with hdr
      have hdrlen : dr.length = min (reSplitWs (k + 1) line).length (k + 1) := by
        rw [hdr, List.length_take]
        have h1 : 0 < (reSplitWs (k + 1) line).length :=
          List.length_pos.mpr (reSplitWs_ne_nil (k + 1) line)
        omega
      have hdrne : dr ≠ [] := by
        have h1 : 0 < (reSplitWs (k + 1) line).length :=
          List.length_pos.mpr (reSplitWs_ne_nil (k + 1) line)
        have : 0 < dr.length := by omega
        exact List.length_pos.mp this
      intro r hr r' hr'
      rw [hred] at hr hr'
      have hlen : ∀ x ∈ dr :: parseLines (k + 1) (some dr) false rest,
          x.length = dr.length := by
        intro x hx
        rcases List.mem_cons.mp hx with hh | hh
        · rw [hh]
        · exact parseLines_steady (k + 1) dr hdrne rest x hh
      rw [hlen r hr, hlen r' hr']

/-- Pairwise-uniform row lengths give uniformity against the first row. -/
theorem uniform_headD (data : List (List String))
    (huni : ∀ r ∈ data, ∀ r' ∈ data, r.length = r'.length) :
    ∀ r ∈ data, r.length = (data.headD []).length := by
  intro r hr
  cases data with
  | nil => simp at hr
  | cons d tl => exact huni r hr d (List.mem_cons_self d tl)

/-- C6: every Table returned by `parse_fixed_width_data` has all of its
rows with the same field count as the header (the Table's first row):
lines whose field count differs are silently excluded, not errors. -/
theorem parse_table_uniform_row_length
    (fileLines : List String) (sourceExists destExists : Bool)
    (path : String) (start endLine : Int) (col_len : Option Int)
    (destination : String) (overwrite : Bool) (data : List (List String))
    (h : (parse_fixed_width_data fileLines sourceExists destExists path start
        endLine col_len destination overwrite).1 = Except.ok (some data)) :
    ∀ r ∈ data, r.length = (data.headD []).length := by
  unfold parse_fixed_width_data at h
  split_ifs at h <;> simp at h
  exact uniform_headD data (h ▸ parseLines_uniform _ _)

/-- Witness for `parse_table_uniform_row_length`: a parse whose second
line has a mismatching field count, which is dropped. -/
theorem parse_table_uniform_row_length_w :
    (parse_fixed_width_data ["a b\n", "1 2 3\n", "4 5\n"] true false "src" 1 3
        (some 9) "" false).1 = Except.ok (some [["a", "b", ""], ["4", "5", ""]]) ∧
    ∀ r ∈ [["a", "b", ""], ["4", "5", ""]],
      r.length = ([["a", "b", ""], ["4", "5", ""]].headD []).length := by
  constructor
  · decide
  · exact parse_table_uniform_row_length ["a b\n", "1 2 3\n", "4 5\n"] true false
      "src" 1 3 (some 9) "" false [["a", "b", ""], ["4", "5", ""]] (by decide)

/-- Splitting a separator-free piece is the identity (one field). -/
theorem splitCh_no_sep (sep : Char) (l : List Char) (h : sep ∉ l) :
    splitCh sep l = [l] := by
  induction l with
  | nil => rfl
  | cons c cs ih =>
    have hc : ¬ c = sep := fun hh => h (hh ▸ List.mem_cons_self c cs)
    have hcs : sep ∉ cs := fun hh => h (List.mem_cons_of_mem c hh)
    simp only [splitCh, if_neg hc, ih hcs]

/-- Splitting past a separator-free prefix peels it off as one field. -/
theorem splitCh_append_sep (sep : Char) (p rest : List Char) (h : sep ∉ p) :
    splitCh sep (p ++ sep :: rest) = p :: splitCh sep rest := by
  induction p with
  | nil => simp [splitCh]
  | cons c cs ih =>
    have hc : ¬ c = sep := fun hh => h (hh ▸ List.mem_cons_self c cs)
    have hcs : sep ∉ cs := fun hh => h (List.mem_cons_of_mem c hh)
    simp only [List.cons_append, splitCh, if_neg hc, List.append_eq]
    rw [ih hcs]

/-- `split` undoes `join` on nonempty, separator-free pieces. -/
theorem splitCh_joinCh (sep : Char) (ps : List (List Char)) (hne : ps ≠ [])
    (h : ∀ p ∈ ps, sep ∉ p) : splitCh sep (joinCh sep ps) = ps := by
  induction ps with
  | nil => exact absurd rfl hne
  | cons p ps ih =>
    cases ps with
    | nil => exact splitCh_no_sep sep p (h p (List.mem_cons_self p []))
    | cons q qs =>
      have hp : sep ∉ p := h p (List.mem_cons_self p (q :: qs))
      have hrec := ih (by simp) (fun x hx => h x (List.mem_cons_of_mem p hx))
      calc splitCh sep (joinCh sep (p :: q :: qs))
          = splitCh sep (p ++ sep :: joinCh sep (q :: qs)) := rfl
        _ = p :: splitCh sep (joinCh sep (q :: qs)) := splitCh_append_sep sep p _ hp
        _ = p :: q :: qs := by rw [hrec]

/-- Splitting the concatenation of newline-terminated lines yields the
lines plus one empty leftover. -/
theorem splitCh_flatten_lines (sep : Char) (ls : List (List Char))
    (h : ∀ l ∈ ls, sep ∉ l) :
    splitCh sep ((ls.map (fun l => l ++ [sep])).flatten) = ls ++ [[]] := by
  induction ls with
  | nil => rfl
  | cons l ls ih =>
    have hl : sep ∉ l := h l (List.mem_cons_self l ls)
    have hrec := ih (fun x hx => h x (List.mem_cons_of_mem l hx))
    calc splitCh sep ((( l :: ls).map (fun l => l ++ [sep])).flatten)
        = splitCh sep (l ++ sep :: (ls.map (fun l => l ++ [sep])).flatten) := by
          simp [List.flatten]
      _ = l :: splitCh sep ((ls.map (fun l => l ++ [sep])).flatten) :=
          splitCh_append_sep sep l _ hl
      _ = (l :: ls) ++ [[]] := by rw [hrec]; rfl

/-- A character of a joined row is the separator or belongs to a piece. -/
theorem mem_joinCh (sep : Char) (ps : List (List Char)) (x : Char)
    (hx : x ∈ joinCh sep ps) : x = sep ∨ ∃ p ∈ ps, x ∈ p := by
  induction ps with
  | nil => simp [joinCh] at hx
  | cons p ps ih =>
    cases ps with
    | nil =>
      right
      exact ⟨p, List.mem_cons_self p [], hx⟩
    | cons q qs =>
      rcases List.mem_append.mp hx with hh | hh
      · exact Or.inr ⟨p, List.mem_cons_self p _, hh⟩
      · rcases List.mem_cons.mp hh with hh | hh
        · exact Or.inl hh
        · rcases ih hh with hh | ⟨r, hr, hxr⟩
          · exact Or.inl hh
          · exact Or.inr ⟨r, List.mem_cons_of_mem p hr, hxr⟩

/-- C7 (amended): for a table whose rows are all nonempty and whose fields
contain neither comma nor newline, writing with `write_csv` and splitting
each written line on commas yields back exactly the original rows. -/
theorem write_csv_roundtrip (data : List (List String))
    (h : ∀ r ∈ data, r ≠ [] ∧ ∀ f ∈ r, ',' ∉ f.data ∧ '\n' ∉ f.data) :
    ∃ content, write_csv false data false = Except.ok content ∧
      (fileLinesOf content).map (fun l => (splitCh ',' l).map String.mk) = data := by
  refine ⟨csvContent data, rfl, ?_⟩
  have hnl : ∀ r ∈ data, '\n' ∉ rowLine r := by
    intro r hr hmem
    rcases mem_joinCh ',' (r.map String.data) '\n' hmem with hh | ⟨p, hp, hxp⟩
    · exact absurd hh (by decide)
    · rcases List.mem_map.mp hp with ⟨f, hf, rfl⟩
      exact ((h r hr).2 f hf).2 hxp
  have hlines : fileLinesOf (csvContent data) = data.map rowLine := by
    unfold fileLinesOf csvContent
    have : (data.map (fun row => rowLine row ++ ['\n'])).flatten =
        ((data.map rowLine).map (fun l => l ++ ['\n'])).flatten := by
      rw [List.map_map]
      rfl
    rw [this, splitCh_flatten_lines '\n' (data.map rowLine)
      (by intro l hl; rcases List.mem_map.mp hl with ⟨r, hr, rfl⟩; exact hnl r hr)]
    simp
  rw [hlines, List.map_map]
  have hrow : ∀ r ∈ data, (splitCh ',' (rowLine r)).map String.mk = r := by
    intro r hr
    unfold rowLine
    rw [splitCh_joinCh ',' (r.map String.data)
      (by simpa using (h r hr).1)
      (by intro p hp; rcases List.mem_map.mp hp with ⟨f, hf, rfl⟩
          exact ((h r hr).2 f hf).1)]
    rw [List.map_map]
    have : (String.mk ∘ String.data) = id := by
      funext s
      cases s
      rfl
    rw [this, List.map_id]
  calc data.map ((fun l => (splitCh ',' l).map String.mk) ∘ rowLine)
      = data.map id := List.map_congr_left (by
        intro r hr
        exact hrow r hr)
    _ = data := List.map_id data

/-- Witness for `write_csv_roundtrip` on a concrete two-row table. -/
theorem write_csv_roundtrip_w :
    ∃ content, write_csv false [["a","b"],["1","2"]] false = Except.ok content ∧
      (fileLinesOf content).map (fun l => (splitCh ',' l).map String.mk) =
        [["a","b"],["1","2"]] :=
  write_csv_roundtrip [["a","b"],["1","2"]] (by decide)

/-- Processing consecutive-year records whose last record exactly completes
the window emits exactly one window and returns the loop to the idle
state with a cleared sum. -/
theorem aggFold_close (period : Int) (vs : List ℚ) :
    ∀ (w : Option (Int × Int)) (y : Int) (s : ℚ) (out : List (Int × Int × ℚ)),
      vs ≠ [] → (y - startOf w y) + (vs.length : Int) = period →
      List.foldl (aggStep period) ((w, s), out) (recsFrom y vs) =
        ((none, 0), out ++ [(startOf w y, y + (vs.length : Int) - 1,
          (s + vs.sum) / (period : ℚ))]) := by
  induction vs with
  | nil => intro w y s out hne _; exact absurd rfl hne
  | cons v vs ih =>
    intro w y s out _ hspan
    cases vs with
    | nil =>
      have hcond : y - startOf w y + 1 = period := by
        simp only [List.length_cons, List.length_nil] at hspan
        push_cast at hspan
        omega
      simp only [recsFrom, List.foldl_cons, List.foldl_nil, aggStep, hcond, if_pos,
        List.length_cons, List.length_nil, List.sum_cons, List.sum_nil, Prod.mk.injEq,
        true_and, List.append_cancel_left_eq]
      simp only [List.cons.injEq, Prod.mk.injEq, and_true]
      exact ⟨trivial, by push_cast; ring, by ring⟩
    | cons v' vs' =>
      have hcond : ¬ (y - startOf w y + 1 = period) := by
        simp only [List.length_cons] at hspan
        have : (0 : Int) ≤ (vs'.length : Int) := Int.natCast_nonneg _
        push_cast at hspan
        omega
      have hstep : List.foldl (aggStep period) ((w, s), out) (recsFrom y (v :: v' :: vs')) =
          List.foldl (aggStep period) ((some (startOf w y, y), s + v), out)
            (recsFrom (y + 1) (v' :: vs')) := by
        simp [recsFrom, aggStep, hcond]
      rw [hstep, ih (some (startOf w y, y)) (y + 1) (s + v) out (by simp) (by
        simp only [startOf, List.length_cons] at hspan ⊢
        push_cast at hspan ⊢
        omega)]
      simp only [startOf, List.length_cons, List.sum_cons, Prod.mk.injEq, true_and,
        List.append_cancel_left_eq]
      simp only [List.cons.injEq, Prod.mk.injEq, and_true]
      exact ⟨trivial, by push_cast; ring, by ring⟩

/-- Processing consecutive-year records that never complete the window
leaves the window open with the accumulated sum and emits nothing. -/
theorem aggFold_partialRun (period : Int) (vs : List ℚ) :
    ∀ (w : Option (Int × Int)) (y : Int) (s : ℚ) (out : List (Int × Int × ℚ)),
      vs ≠ [] → 0 ≤ y - startOf w y →
      (y - startOf w y) + (vs.length : Int) < period →
      List.foldl (aggStep period) ((w, s), out) (recsFrom y vs) =
        ((some (startOf w y, y + (vs.length : Int) - 1), s + vs.sum), out) := by
  induction vs with
  | nil => intro w y s out hne _ _; exact absurd rfl hne
  | cons v vs ih =>
    intro w y s out _ hnn hspan
    have hlen0 : (0 : Int) ≤ (vs.length : Int) := Int.natCast_nonneg _
    have hcond : ¬ (y - startOf w y + 1 = period) := by
      simp only [List.length_cons] at hspan
      push_cast at hspan
      omega
    cases vs with
    | nil =>
      simp only [recsFrom, List.foldl_cons, List.foldl_nil, aggStep, hcond, if_neg,
        List.length_cons, List.length_nil, List.sum_cons, List.sum_nil, Prod.mk.injEq,
        Option.some.injEq]
      all_goals first | rfl | (push_cast; try ring_nf)
    | cons v' vs' =>
      have hstep : List.foldl (aggStep period) ((w, s), out) (recsFrom y (v :: v' :: vs')) =
          List.foldl (aggStep period) ((some (startOf w y, y), s + v), out)
            (recsFrom (y + 1) (v' :: vs')) := by
        simp [recsFrom, aggStep, hcond]
      have hnn' : (0 : Int) ≤ y + 1 - startOf (some (startOf w y, y)) (y + 1) := by
        show (0 : Int) ≤ y + 1 - startOf w y
        omega
      have hspan' : (y + 1 - startOf (some (startOf w y, y)) (y + 1)) +
          ((v' :: vs').length : Int) < period := by
        show (y + 1 - startOf w y) + ((v' :: vs').length : Int) < period
        simp only [List.length_cons] at hspan ⊢
        push_cast at hspan ⊢
        omega
      rw [hstep, ih (some (startOf w y, y)) (y + 1) (s + v) out (by simp) hnn' hspan']
      show ((some (startOf w y, y + 1 + ((v' :: vs').length : Int) - 1), s + v +
          (v' :: vs').sum), out) =
        ((some (startOf w y, y + (((v :: v' :: vs').length : Nat) : Int) - 1),
          s + (v :: v' :: vs').sum), out)
      simp only [List.length_cons, List.sum_cons, Prod.mk.injEq, Option.some.injEq]
      repeat' apply And.intro
      all_goals first | rfl | (push_cast; try ring_nf)

/-- C4: for exactly `period` records with consecutive years the aggregator
emits exactly one window, whose start and end are the first and last input
years and whose average is the sum of the values divided by `period`. -/
theorem agg_full_period (y0 : Int) (vs : List ℚ) (period : Int) (print_last : Bool)
    (h1 : vs ≠ []) (h2 : (vs.length : Int) = period) :
    _display_periodic_avg (recsFrom y0 vs) period print_last =
      [(y0, y0 + period - 1, vs.sum / (period : ℚ))] := by
  unfold _display_periodic_avg
  rw [aggFold_close period vs none y0 0 [] h1 (by simp only [startOf]; omega)]
  simp only [startOf, zero_add, List.nil_append, h2]

/-- Witness for `agg_full_period`: the spec's concrete scenario, years
1880-1889 with value 0.1 each. -/
theorem agg_full_period_w :
    _display_periodic_avg (recsFrom 1880 (List.replicate 10 ((1 : ℚ)/10))) 10 true =
      [(1880, 1880 + 10 - 1, (List.replicate 10 ((1 : ℚ)/10)).sum / ((10 : Int) : ℚ))] :=
  agg_full_period 1880 (List.replicate 10 ((1 : ℚ)/10)) 10 true (by decide) (by decide)

/-- Consecutive-year records split across an append. -/
theorem recsFrom_append (y0 : Int) (a b : List ℚ) :
    recsFrom y0 (a ++ b) = recsFrom y0 a ++ recsFrom (y0 + (a.length : Int)) b := by
  induction a generalizing y0 with
  | nil => simp [recsFrom]
  | cons v a ih =>
    have harg : y0 + 1 + (a.length : Int) = y0 + ((a.length + 1 : Nat) : Int) := by
      push_cast
      ring
    simp only [List.cons_append, recsFrom, List.length_cons, List.cons.injEq, true_and,
      List.append_eq]
    rw [ih (y0 + 1), harg]

/-- C5: for `period + k` consecutive-year records (`0 < k < period`) with
`print_last = true`, exactly two windows are emitted: the full window with
divisor `period`, then the trailing partial window of span `k` with
divisor `k`. -/
theorem agg_partial_trailing (y0 : Int) (vs1 vs2 : List ℚ) (period k : Int)
    (h1 : vs1 ≠ []) (h2 : (vs1.length : Int) = period)
    (h3 : (vs2.length : Int) = k) (hk0 : 0 < k) (hkp : k < period) :
    _display_periodic_avg (recsFrom y0 (vs1 ++ vs2)) period true =
      [(y0, y0 + period - 1, vs1.sum / (period : ℚ)),
       (y0 + period, y0 + period + k - 1, vs2.sum / (k : ℚ))] := by
  have hvs2 : vs2 ≠ [] := by
    intro hh
    rw [hh] at h3
    simp at h3
    omega
  unfold _display_periodic_avg
  rw [recsFrom_append, List.foldl_append,
    aggFold_close period vs1 none y0 0 [] h1 (by simp only [startOf]; omega), h2,
    aggFold_partialRun period vs2 none (y0 + period) 0 _ hvs2
      (by simp only [startOf]; omega)
      (by simp only [startOf]; omega)]
  simp only [startOf, List.nil_append, zero_add, h3]
  have hdiv : y0 + period + k - 1 - (y0 + period) + 1 = k := by omega
  rw [hdiv]
  rfl

/-- Witness for `agg_partial_trailing`: period 2 plus one trailing record. -/
theorem agg_partial_trailing_w :
    _display_periodic_avg (recsFrom 1900 (([1, 1] : List ℚ) ++ [3])) 2 true =
      [(1900, 1900 + 2 - 1, ([1, 1] : List ℚ).sum / ((2 : Int) : ℚ)),
       (1900 + 2, 1900 + 2 + 1 - 1, ([3] : List ℚ).sum / ((1 : Int) : ℚ))] :=
  agg_partial_trailing 1900 [1, 1] [3] 2 1 (by decide) (by decide) (by decide)
    (by decide) (by decide)

/-- `set` then `get?` at the same valid index. -/
theorem get?_set_self {α : Type} : ∀ (l : List α) (i : Nat) (v : α),
    i < l.length → (l.set i v).get? i = some v
  | [], i, v, h => absurd h (by simp)
  | _ :: _, 0, _, _ => rfl
  | _ :: l, i + 1, v, h => get?_set_self l i v (by simpa using h)

/-- `set` leaves every other index unchanged. -/
theorem get?_set_ne {α : Type} : ∀ (l : List α) (i j : Nat) (v : α), i ≠ j →
    (l.set i v).get? j = l.get? j
  | [], _, _, _, _ => by simp
  | _ :: _, 0, 0, _, h => absurd rfl h
  | _ :: _, 0, _ + 1, _, _ => rfl
  | _ :: _, _ + 1, 0, _, _ => rfl
  | _ :: l, i + 1, j + 1, v, h =>
    get?_set_ne l i j v (fun hh => h (by rw [hh]))

/-- A successful `get?` bounds the index. -/
theorem lt_of_get?_some {α : Type} : ∀ (l : List α) (i : Nat) (x : α),
    l.get? i = some x → i < l.length
  | [], i, x, h => by simp at h
  | _ :: _, 0, _, _ => Nat.succ_pos _
  | _ :: l, i + 1, x, h => Nat.succ_lt_succ (lt_of_get?_some l i x h)

/-- Anatomy of a successful loop-body step: the visited cell existed, its
text parsed, and the table was updated exactly at that cell. -/
theorem toFarStep_ok (d : List (List String)) (ij : Nat × Nat)
    (d₁ : List (List String)) (h : toFarStep d ij = .ok d₁) :
    ∃ row entry v, d.get? ij.1 = some row ∧ row.get? ij.2 = some entry ∧
      pyFloat entry = some v ∧
      d₁ = d.set ij.1 (row.set ij.2 (formatOneDecimal (v * TO_FARENHEIT_COEFFICIENT))) := by
  unfold toFarStep at h
  cases hrow : d.get? ij.1 with
  | none => simp only [hrow] at h; exact Except.noConfusion h
  | some row =>
    simp only [hrow] at h
    cases hentry : row.get? ij.2 with
    | none => simp only [hentry] at h; exact Except.noConfusion h
    | some entry =>
      simp only [hentry] at h
      cases hv : pyFloat entry with
      | none => simp only [hv] at h; exact Except.noConfusion h
      | some v =>
        simp only [hv, Except.ok.injEq] at h
        exact ⟨row, entry, v, rfl, hentry, hv, h.symm⟩

/-- Updating one cell leaves every other cell unchanged. -/
theorem cellGet_update_ne (d : List (List String)) (row : List String)
    (i j : Nat) (v : String) (hrow : d.get? i = some row) (i' j' : Nat)
    (hne : (i', j') ≠ (i, j)) :
    cellGet (d.set i (row.set j v)) i' j' = cellGet d i' j' := by
  by_cases hi : i' = i
  · subst hi
    have hj : j' ≠ j := by
      intro hh
      exact hne (by rw [hh])
    unfold cellGet
    rw [get?_set_self d i' (row.set j v) (lt_of_get?_some d i' row hrow), hrow]
    show (row.set j v).get? j' = row.get? j'
    exact get?_set_ne row j j' v (fun hh => hj hh.symm)
  · unfold cellGet
    rw [get?_set_ne d i i' (row.set j v) (fun hh => hi hh.symm)]

/-- Updating one cell makes that cell hold the new value. -/
theorem cellGet_update_self (d : List (List String)) (row : List String)
    (i j : Nat) (v : String) (x : String) (hrow : d.get? i = some row)
    (hx : row.get? j = some x) :
    cellGet (d.set i (row.set j v)) i j = some v := by
  unfold cellGet
  rw [get?_set_self d i (row.set j v) (lt_of_get?_some d i row hrow)]
  show (row.set j v).get? j = some v
  exact get?_set_self row j v (lt_of_get?_some row j x hx)

/-- Extract the row behind a successful cell lookup. -/
theorem cellGet_some (d : List (List String)) (i j : Nat) (x : String)
    (h : cellGet d i j = some x) :
    ∃ row, d.get? i = some row ∧ row.get? j = some x := by
  unfold cellGet at h
  cases hrow : d.get? i with
  | none => rw [hrow] at h; simp at h
  | some row =>
    rw [hrow] at h
    exact ⟨row, rfl, h⟩

/-- Extract the parsed value behind a successful cell conversion. -/
theorem convCell_some (s : String) (w : String) (h : convCell s = some w) :
    ∃ v, pyFloat s = some v ∧ w = formatOneDecimal (v * TO_FARENHEIT_COEFFICIENT) := by
  unfold convCell at h
  cases hv : pyFloat s with
  | none => rw [hv] at h; simp at h
  | some v =>
    rw [hv] at h
    exact ⟨v, rfl, by simpa using h.symm⟩

/-- A successful region pass leaves every unvisited cell unchanged. -/
theorem runRegion_frame : ∀ (ids : List (Nat × Nat)) (d d' : List (List String)),
    runRegion ids d = .ok d' →
    ∀ p : Nat × Nat, p ∉ ids → cellGet d' p.1 p.2 = cellGet d p.1 p.2 := by
  intro ids
  induction ids with
  | nil =>
    intro d d' h p _
    simp only [runRegion, Except.ok.injEq] at h
    rw [h]
  | cons ij rest ih =>
    intro d d' h p hp
    unfold runRegion at h
    cases htf : toFarStep d ij with
    | error e =>
      simp only [htf] at h
      exact Except.noConfusion h
    | ok d₁ =>
      simp only [htf] at h
      obtain ⟨row, entry, v, hrow, hentry, hv, hd₁⟩ := toFarStep_ok d ij d₁ htf
      have hpij : p ≠ ij := fun hh => hp (hh ▸ List.mem_cons_self ij rest)
      have hrest : p ∉ rest := fun hh => hp (List.mem_cons_of_mem ij hh)
      rw [ih d₁ d' h p hrest, hd₁]
      exact cellGet_update_ne d row ij.1 ij.2 _ hrow p.1 p.2 (by
        intro hh
        apply hpij
        cases p
        cases ij
        simpa using hh)

/-- When every visited cell exists and parses, the region pass succeeds,
converts exactly the visited cells, and leaves the rest unchanged. -/
theorem runRegion_ok : ∀ (ids : List (Nat × Nat)) (d : List (List String)),
    ids.Nodup →
    (∀ p ∈ ids, ((cellGet d p.1 p.2).bind convCell).isSome = true) →
    ∃ d', runRegion ids d = .ok d' ∧
      (∀ p ∈ ids, cellGet d' p.1 p.2 = (cellGet d p.1 p.2).bind convCell) ∧
      (∀ q : Nat × Nat, q ∉ ids → cellGet d' q.1 q.2 = cellGet d q.1 q.2) := by
  intro ids
  induction ids with
  | nil =>
    intro d _ _
    exact ⟨d, rfl, by simp, fun q _ => rfl⟩
  | cons ij rest ih =>
    intro d hnd hok
    have hij := hok ij (List.mem_cons_self ij rest)
    cases hcg : cellGet d ij.1 ij.2 with
    | none => rw [hcg] at hij; simp at hij
    | some entry =>
      rw [hcg] at hij
      have hij' : (convCell entry).isSome = true := hij
      cases hcv : convCell entry with
      | none =>
        rw [hcv] at hij'
        simp at hij'
      | some w =>
        obtain ⟨row, hrowEq, hentryEq⟩ := cellGet_some d ij.1 ij.2 entry hcg
        obtain ⟨v, hvEq, hwEq⟩ := convCell_some entry w hcv
        have hstep : toFarStep d ij = .ok (d.set ij.1 (row.set ij.2 w)) := by
          unfold toFarStep
          simp only [hrowEq, hentryEq, hvEq, ← hwEq]
        have hijnotin : ij ∉ rest := (List.nodup_cons.mp hnd).1
        have hnd' : rest.Nodup := (List.nodup_cons.mp hnd).2
        have hframe1 : ∀ p : Nat × Nat, p ≠ ij →
            cellGet (d.set ij.1 (row.set ij.2 w)) p.1 p.2 = cellGet d p.1 p.2 := by
          intro p hpij
          exact cellGet_update_ne d row ij.1 ij.2 w hrowEq p.1 p.2 (by
            intro hh
            apply hpij
            cases p
            cases ij
            simpa using hh)
        have hok' : ∀ p ∈ rest,
            ((cellGet (d.set ij.1 (row.set ij.2 w)) p.1 p.2).bind convCell).isSome = true := by
          intro p hp
          rw [hframe1 p (fun hh => hijnotin (hh ▸ hp))]
          exact hok p (List.mem_cons_of_mem ij hp)
        obtain ⟨d', hrun, hconv, hfr⟩ := ih (d.set ij.1 (row.set ij.2 w)) hnd' hok'
        refine ⟨d', ?_, ?_, ?_⟩
        · unfold runRegion
          simp only [hstep]
          exact hrun
        · intro p hp
          rcases List.mem_cons.mp hp with hh | hh
          · subst hh
            rw [hfr p hijnotin,
              cellGet_update_self d row p.1 p.2 w entry hrowEq hentryEq, hcg]
            exact hcv.symm
          · rw [hconv p hh, hframe1 p (fun hh2 => hijnotin (hh2 ▸ hh))]
        · intro q hq
          have hq1 : q ∉ rest := fun hh => hq (List.mem_cons_of_mem ij hh)
          have hq2 : q ≠ ij := fun hh => hq (hh ▸ List.mem_cons_self ij rest)
          rw [hfr q hq1]
          exact hframe1 q hq2

/-- Membership in the nested loops' index region (zero-based bounds). -/
theorem mem_regionList (p : Nat × Nat) (rN cN : Nat) :
    p ∈ regionList 0 rN 0 cN ↔ p.1 < rN ∧ p.2 < cN := by
  cases p with
  | mk i j =>
    simp [regionList, List.mem_flatMap, List.mem_map, List.mem_range'_1, Prod.mk.injEq]

/-- The nested loops visit pairwise distinct index pairs. -/
theorem nodup_regionList (rN cN : Nat) : (regionList 0 rN 0 cN).Nodup := by
  unfold regionList
  rw [List.nodup_flatMap]
  constructor
  · intro i _
    exact (List.nodup_range' 0 cN).map (fun a b hab => by simpa using hab)
  · refine (List.nodup_range' 0 rN).imp ?_
    intro a b hab x hxa hxb
    rcases List.mem_map.mp hxa with ⟨j, _, rfl⟩
    rcases List.mem_map.mp hxb with ⟨j', _, hEq⟩
    have hh : a = b ∧ j = j' := by simpa using hEq.symm
    exact hab hh.1

/-- On a nonempty table with fresh default bounds, `_to_farenheit` stores
`(len(data), len(data[0][0]))` into the shared default list and runs the
square region bounded by `len(data[0][0])` in both directions. -/
theorem to_farenheit_default_unfold (data : List (List String))
    (h1 : data ≠ []) (h2 : data.headD [] ≠ []) :
    _to_farenheit (none, none) data (0, 0) =
      ((some data.length, some ((data.headD []).headD "").length),
        runRegion (regionList 0 ((data.headD []).headD "").length 0
          ((data.headD []).headD "").length) data) := by
  unfold _to_farenheit
  rw [if_neg]
  simp only [List.length_eq_zero, not_or]
  exact ⟨h1, h2⟩

/-- C3 (amended): with default bounds the conversion pass starts at row 0,
column 0 (the header row and column are not skipped), and visits exactly
the square `[0, L) × [0, L)` where `L = len(data[0][0])` — the string
length of the first cell, reused as both the row and the column bound;
when the pass completes, every cell outside that square is unchanged. -/
theorem to_farenheit_default_frame (data d' : List (List String))
    (h1 : data ≠ []) (h2 : data.headD [] ≠ [])
    (h : (_to_farenheit (none, none) data (0, 0)).2 = .ok d') :
    ∀ i j : Nat, ((data.headD []).headD "").length ≤ i ∨
        ((data.headD []).headD "").length ≤ j →
      cellGet d' i j = cellGet data i j := by
  rw [to_farenheit_default_unfold data h1 h2] at h
  intro i j hij
  exact runRegion_frame _ data d' h (i, j) (by
    rw [mem_regionList]
    omega)

/-- Witness for `to_farenheit_default_frame`: first cell `"1"` has length
1, so cell (0, 1) is outside the visited square and keeps its text. -/
theorem to_farenheit_default_frame_w :
    cellGet [["1.8","22"],["3","4"]] 0 1 = cellGet [["1","22"],["3","4"]] 0 1 :=
  to_farenheit_default_frame [["1","22"],["3","4"]] [["1.8","22"],["3","4"]]
    (by decide) (by decide) (by decide) 0 1 (by decide)

/-- C1 (amended): `entry.isnumeric` is a truthy bound-method reference that
is never called, so every visited cell is treated as numeric.  When every
cell of the visited square parses as a float, each visited cell is
replaced by its value times 1.8 formatted to one decimal place and every
other cell is unchanged; a visited cell that does not parse makes the
pass raise `ValueError` instead of passing through unchanged. -/
theorem to_farenheit_numeric_cells (data : List (List String))
    (h1 : data ≠ []) (h2 : data.headD [] ≠ [])
    (hok : ∀ i, i < ((data.headD []).headD "").length →
      ∀ j, j < ((data.headD []).headD "").length →
        ((cellGet data i j).bind convCell).isSome = true) :
    ∃ d', (_to_farenheit (none, none) data (0, 0)).2 = .ok d' ∧
      (∀ i, i < ((data.headD []).headD "").length →
        ∀ j, j < ((data.headD []).headD "").length →
          cellGet d' i j = (cellGet data i j).bind convCell) ∧
      (∀ i j : Nat, ((data.headD []).headD "").length ≤ i ∨
          ((data.headD []).headD "").length ≤ j →
        cellGet d' i j = cellGet data i j) := by
  rw [to_farenheit_default_unfold data h1 h2]
  obtain ⟨d', hrun, hconv, hfr⟩ := runRegion_ok
    (regionList 0 ((data.headD []).headD "").length 0
      ((data.headD []).headD "").length) data
    (nodup_regionList _ _)
    (by
      intro p hp
      rw [mem_regionList] at hp
      exact hok p.1 hp.1 p.2 hp.2)
  refine ⟨d', hrun, ?_, ?_⟩
  · intro i hi j hj
    exact hconv (i, j) (by rw [mem_regionList]; exact ⟨hi, hj⟩)
  · intro i j hij
    exact hfr (i, j) (by rw [mem_regionList]; omega)

/-- Witness for `to_farenheit_numeric_cells` on `[["12","3"],["4","5"]]`
(first cell length 2, all four cells numeric). -/
theorem to_farenheit_numeric_cells_w :
    ∃ d', (_to_farenheit (none, none) [["12","3"],["4","5"]] (0, 0)).2 = .ok d' ∧
      (∀ i, i < ((([["12","3"],["4","5"]] : List (List String)).headD
          []).headD "").length →
        ∀ j, j < ((([["12","3"],["4","5"]] : List (List String)).headD
            []).headD "").length →
          cellGet d' i j =
            (cellGet [["12","3"],["4","5"]] i j).bind convCell) ∧
      (∀ i j : Nat, ((([["12","3"],["4","5"]] : List (List String)).headD
            []).headD "").length ≤ i ∨
          ((([["12","3"],["4","5"]] : List (List String)).headD
            []).headD "").length ≤ j →
        cellGet d' i j = cellGet [["12","3"],["4","5"]] i j) :=
  to_farenheit_numeric_cells [["12","3"],["4","5"]] (by decide) (by decide)
    (by decide)
